import Mathlib

/-!
Verification of the ForexSubPub subscriber (`forex_subscriber.py`,
`fxp_bytes_subscriber.py`).

The Python data structures are shallowly embedded:

* a Python `dict` is an ordered association list `List (K × V)` whose
  insert replaces the first matching key in place (or appends), whose
  delete filters the key out, and whose lookup returns the first match;
* `float` prices and second counts are embedded as `ℚ`; an IEEE-754
  binary32 bit pattern is mapped to its exact rational value;
* `Except Unit` models a raised Python exception (`ValueError`,
  `IndexError`, `TypeError`, `UnboundLocalError`, ...): callers that wrap
  the call in `try/except` match on the `Except` value;
* the store's timestamps are `float` seconds since the epoch, while
  `datetime.utcnow()` is a `datetime` object; where the distinction is
  load-bearing (stale-quote eviction and graph building subtract a float
  from a datetime, a `TypeError` in Python) the sum type `PyTime` keeps
  the two runtime types apart.
-/

section PyDict

variable {K V : Type} [DecidableEq K]

/-- First-match lookup in an ordered association list: `d[k]` / `k in d`. -/
def dlookup (k : K) : List (K × V) → Option V
  | [] => none
  | (k', v) :: rest => if k' = k then some v else dlookup k rest

/-- Python `d[k] = v`: replace the first entry with key `k` in place,
or append a new entry at the end. -/
def dinsert : List (K × V) → K → V → List (K × V)
  | [], k, v => [(k, v)]
  | (k', v') :: rest, k, v =>
      if k' = k then (k, v) :: rest else (k', v') :: dinsert rest k v

/-- Python `del d[k]` (on the association-list image): drop entries with key `k`. -/
def ddelete (k : K) (d : List (K × V)) : List (K × V) :=
  d.filter (fun e => e.1 ≠ k)

theorem dlookup_dinsert_self (d : List (K × V)) (k : K) (v : V) :
    dlookup k (dinsert d k v) = some v := by
  induction d with
  | nil => simp [dinsert, dlookup]
  | cons e rest ih =>
      obtain ⟨ek, ev⟩ := e
      by_cases h : ek = k
      · simp [dinsert, h, dlookup]
      · simp [dinsert, h, dlookup, ih]

theorem dlookup_dinsert_ne (d : List (K × V)) (k k' : K) (v : V) (h : k' ≠ k) :
    dlookup k' (dinsert d k v) = dlookup k' d := by
  have hk : ¬ (k = k') := fun h' => h h'.symm
  induction d with
  | nil => simp [dinsert, dlookup, hk]
  | cons e rest ih =>
      obtain ⟨ek, ev⟩ := e
      by_cases he : ek = k
      · have he' : ¬ (ek = k') := by rw [he]; exact hk
        simp [dinsert, he, dlookup, hk, he']
      · by_cases he' : ek = k'
        · simp [dinsert, he, dlookup, he', hk, h]
        · simp [dinsert, he, dlookup, he', ih]

theorem dlookup_ddelete_self (d : List (K × V)) (k : K) :
    dlookup k (ddelete k d) = none := by
  induction d with
  | nil => simp [ddelete, dlookup]
  | cons e rest ih =>
      obtain ⟨ek, ev⟩ := e
      by_cases h : ek = k
      · simpa [ddelete, h] using ih
      · simpa [ddelete, h, dlookup] using ih

theorem dlookup_ddelete_none (d : List (K × V)) (k k' : K)
    (h : dlookup k d = none) : dlookup k (ddelete k' d) = none := by
  induction d with
  | nil => simp [ddelete, dlookup]
  | cons e rest ih =>
      obtain ⟨ek, ev⟩ := e
      by_cases hk : ek = k
      · simp [dlookup, hk] at h
      · simp [dlookup, hk] at h
        by_cases hk' : ek = k'
        · simpa [ddelete, hk'] using ih h
        · simpa [ddelete, hk', dlookup, hk] using ih h

theorem dlookup_isSome_of_mem (d : List (K × V)) (k : K) (v : V)
    (h : (k, v) ∈ d) : (dlookup k d).isSome := by
  induction d with
  | nil => simp at h
  | cons e rest ih =>
      obtain ⟨ek, ev⟩ := e
      rcases List.mem_cons.1 h with h1 | h1
      · rw [show ek = k from (Prod.mk.injEq _ _ _ _ ▸ h1.symm).1]
        simp [dlookup]
      · by_cases hk : ek = k
        · simp [dlookup, hk]
        · simpa [dlookup, hk] using ih h1

end PyDict

section Codec

/-- Little-endian (native x86) value of a byte list, least significant byte
first: how `array('f').frombytes` reads its first element's bytes. -/
def leWord : List ℕ → ℕ
  | [] => 0
  | b :: rest => b + 256 * leWord rest

/-- Big-endian value of a byte list, most significant byte first: the value
read by `array('Q'); frombytes; byteswap`. -/
def beWord (bs : List ℕ) : ℕ :=
  bs.foldl (fun acc b => 256 * acc + b) 0

/-- Exact rational value of the IEEE-754 binary32 number with bit pattern
`w` (sign bit 31, biased exponent bits 30–23, fraction bits 22–0).
Biased exponent 255 encodes ±∞/NaN, which have no rational value; the
normal-number formula is extended formally there, and every theorem below
evaluates this function on finite patterns only. -/
def float32OfWord (w : ℕ) : ℚ :=
  let sign : ℕ := w / 2 ^ 31 % 2
  let expo : ℕ := w / 2 ^ 23 % 2 ^ 8
  let frac : ℕ := w % 2 ^ 23
  let mag : ℚ :=
    if expo = 0 then (frac : ℚ) / 2 ^ 149
    else ((2 ^ 23 + frac : ℕ) : ℚ) * 2 ^ expo / 2 ^ 150
  if sign = 1 then -mag else mag

/-- `bytes.decode('ascii')`: succeeds exactly when every byte is below 128
(otherwise Python raises `UnicodeDecodeError`); the length is whatever the
slice produced. -/
def asciiDecode (bs : List ℕ) : Except Unit String :=
  if ∀ b ∈ bs, b < 128 then .ok (String.mk (bs.map Char.ofNat)) else .error ()

/-- `fxp_bytes_subscriber.deserialize_price`: `array('f'); a.frombytes(b);
a[0]` with no byteswap, so the four bytes are read in native little-endian
order.  `frombytes` raises `ValueError` unless the length is a multiple of
4, and `a[0]` raises `IndexError` on an empty array. -/
def deserialize_price (byte_data : List ℕ) : Except Unit ℚ :=
  if byte_data.length % 4 = 0 then
    if byte_data.length = 0 then .error ()
    else .ok (float32OfWord (leWord (byte_data.take 4)))
  else .error ()

/-- `fxp_bytes_subscriber.deserialize_utcdatetime`: `array('Q');
frombytes; byteswap; a[0] / 1_000_000` — the 8 bytes are read big-endian
as microseconds and divided down to (float) seconds.  `frombytes` raises
`ValueError` unless the length is a multiple of 8, `a[0]` raises
`IndexError` on an empty array. -/
def deserialize_utcdatetime (byte_data : List ℕ) : Except Unit ℚ :=
  if byte_data.length % 8 = 0 then
    if byte_data.length = 0 then .error ()
    else .ok ((beWord (byte_data.take 8) : ℚ) / 1000000)
  else .error ()

/-- `fxp_bytes_subscriber.split_quotes`: cut the datagram into 32-byte
chunks; a nonempty remainder shorter than 32 bytes is appended as a final
(short) chunk. -/
def split_quotes (binary_string : List ℕ) : List (List ℕ) :=
  let quotes_count := binary_string.length / 32
  let full := (List.range quotes_count).map
    (fun i => (binary_string.drop (32 * i)).take 32)
  if binary_string.length % 32 = 0 then full
  else full ++ [binary_string.drop (32 * quotes_count)]

/-- Currency pair: the `iso_pair` tuple key of the Python dictionaries. -/
abbrev CcyPair := String × String

/-- Stored quote value: `(price, timestamp)`, both Python floats. -/
abbrev Quote := ℚ × ℚ

/-- The loop body of `fxp_bytes_subscriber.parse_quotes` for a single
chunk: decode bytes 0–2 and 3–5 as ASCII, bytes 6–9 via
`deserialize_price`, bytes 10–17 via `deserialize_utcdatetime`; the
remaining bytes of the chunk are never sliced.  Python's slicing is
lenient, so a short chunk simply yields short slices, and the first
failing decode raises out of `parse_quotes`. -/
def decodeChunk (q : List ℕ) : Except Unit (CcyPair × Quote) := do
  let c1 ← asciiDecode (q.take 3)
  let c2 ← asciiDecode ((q.drop 3).take 3)
  let price ← deserialize_price ((q.drop 6).take 4)
  let ts ← deserialize_utcdatetime ((q.drop 10).take 8)
  pure ((c1, c2), (price, ts))

/-- Accumulating loop of `parse_quotes`: `quotes_dict[iso_pair] = (price,
timestamp)` for each chunk in order; an exception aborts the whole call
(the partially built dict is discarded). -/
def parseQuotesAux (acc : List (CcyPair × Quote)) :
    List (List ℕ) → Except Unit (List (CcyPair × Quote))
  | [] => .ok acc
  | q :: rest =>
      match decodeChunk q with
      | .error e => .error e
      | .ok r => parseQuotesAux (dinsert acc r.1 r.2) rest

/-- `fxp_bytes_subscriber.parse_quotes`. -/
def parse_quotes (binary_quotes_list : List (List ℕ)) :
    Except Unit (List (CcyPair × Quote)) :=
  parseQuotesAux [] binary_quotes_list

end Codec

section QuoteStore

/-- The subscriber's quote store `self.quotes_dict`. -/
abbrev QDict := List (CcyPair × Quote)

/-- One iteration of the loop in `Subscriber.update_quotes_dict` for the
batch item `(iso_pair, (price, timestamp))`: insert if the pair is absent,
overwrite if the stored timestamp is strictly older than the incoming one,
otherwise leave the store alone.  The returned flag is this item's
contribution to `updated`. -/
def mergeStep (store : QDict) (item : CcyPair × Quote) : QDict × Bool :=
  match dlookup item.1 store with
  | none => (dinsert store item.1 item.2, true)
  | some q0 =>
      if q0.2 < item.2.2 then (dinsert store item.1 item.2, true)
      else (store, false)

/-- `Subscriber.update_quotes_dict`: fold `mergeStep` over the incoming
batch (in its iteration order), or-ing the `updated` flag. -/
def update_quotes_dict (store : QDict) (batch : List (CcyPair × Quote)) :
    QDict × Bool :=
  batch.foldl (fun acc item =>
    let r := mergeStep acc.1 item
    (r.1, acc.2 || r.2)) (store, false)

/-- The snapshot `update_quotes_dict` pushes onto `quotes_queue`: a copy
of the store after the whole batch, pushed exactly when `updated` is
true. -/
def update_quotes_dict_push (store : QDict) (batch : List (CcyPair × Quote)) :
    Option QDict :=
  let r := update_quotes_dict store batch
  if r.2 then some r.1 else none

/-- Return value of `Subscriber.update_quotes_dict`: the Python function
body contains no `return` statement, so every call evaluates to `None`,
although the docstring declares `bool: True if any quotes were updated`. -/
def update_quotes_dict_return (_store : QDict) (_batch : List (CcyPair × Quote)) :
    Option Bool :=
  none

/-- Time-uniform model of `Subscriber.remove_stale_quotes`, with the clock
and the stored timestamps both read as rational seconds (the arithmetic
the code intends; `remove_stale_quotes_dyn` below keeps the actual Python
runtime types apart).  Collect the pairs older than 1.5 s in iteration
order, then delete each; the flag records whether any pair was collected
(which is when a snapshot is pushed). -/
def remove_stale_quotes (store : QDict) (now : ℚ) : QDict × Bool :=
  let stale : List CcyPair :=
    (store.filter (fun e => now - e.2.2 > 3 / 2)).map Prod.fst
  (stale.foldl (fun s k => ddelete k s) store, !stale.isEmpty)

/-- The snapshot `remove_stale_quotes` pushes onto `quotes_queue`: a copy
of the store after the deletions, pushed exactly when `stale_pairs` was
nonempty. -/
def remove_stale_quotes_push (store : QDict) (now : ℚ) : Option QDict :=
  let r := remove_stale_quotes store now
  if r.2 then some r.1 else none

/-- A Python value standing for a point in time, keeping the runtime type:
`datetime.utcnow()` yields a `dt`, while `deserialize_utcdatetime` (and
hence every timestamp stored in `quotes_dict`) yields a float `fl`.  Both
payloads are seconds since the Unix epoch. -/
inductive PyTime where
  | dt (t : ℚ)
  | fl (t : ℚ)
deriving DecidableEq

/-- The expression `(now - timestamp).total_seconds()`: defined only when
both operands are `datetime` objects.  `datetime - float` raises
`TypeError`, and a float difference would have no `total_seconds`
attribute, so every mixed or float/float combination is an exception. -/
def ageSeconds (now ts : PyTime) : Except Unit ℚ :=
  match now, ts with
  | .dt a, .dt b => .ok (a - b)
  | _, _ => .error ()

/-- `Subscriber.remove_stale_quotes` with the runtime time types kept
apart: `current_time` is a `datetime`, each stored timestamp is whatever
`PyTime` the store holds (a float, for every quote that came through
`parse_quotes`).  The stale-pair collection loop runs first; an exception
there leaves the store untouched. -/
def remove_stale_quotes_dyn (store : List (CcyPair × ℚ × PyTime)) (now : PyTime) :
    Except Unit (List (CcyPair × ℚ × PyTime) × Bool) := do
  let stale ← store.foldlM (fun acc e => do
      let age ← ageSeconds now e.2.2
      pure (if age > 3 / 2 then acc ++ [e.1] else acc)) ([] : List CcyPair)
  pure (stale.foldl (fun s k => s.filter (fun e => e.1 ≠ k)) store, !stale.isEmpty)

/-- The graph-building loop body of `Subscriber.update_graph`, with the
runtime time types kept apart and the float `math.log10` abstracted by a
weight function `log10`.  For each quote the loop first evaluates
`(datetime.utcnow() - timestamp).total_seconds()` — a `TypeError` when the
timestamp is a float — and only then, when the age is within 1.5 s, adds
the edge pair `(base, quote, -log10 price)` and `(quote, base, log10
price)`.  An exception aborts the whole rebuild (caught by the thread
loop), so no graph is published. -/
def update_graph_dyn (log10 : ℚ → ℚ) (quotes : List (CcyPair × ℚ × PyTime))
    (now : PyTime) : Except Unit (List (String × String × ℚ)) :=
  quotes.foldlM (fun g e => do
    let age ← ageSeconds now e.2.2
    pure (if age ≤ 3 / 2 then
      g ++ [(e.1.1, e.1.2, -(log10 e.2.1)), (e.1.2, e.1.1, log10 e.2.1)]
    else g)) []

/-- Store evolution of one iteration of `Subscriber.receive_updates` for a
datagram: split, parse, merge, all inside `try/except`.  `parse_quotes`
raising drops the whole datagram (store unchanged).  The subsequent
`remove_stale_quotes` call raises `TypeError` before mutating the store
whenever the store is nonempty (see `remove_stale_quotes_dyn`), and is a
no-op on an empty store, so the store after the iteration is the
post-merge store. -/
def receive_step (store : QDict) (data : List ℕ) : QDict :=
  match parse_quotes (split_quotes data) with
  | .error _ => store
  | .ok d => (update_quotes_dict store d).1

end QuoteStore

section Arbitrage

/-- Rate lookup for one leg of `Subscriber.identify_arbitrage`: the direct
pair's price, else the reciprocal of the reversed pair's price, else the
Python local `curr_rate` keeps whatever value the previous iteration left
in it (`none` when no iteration has assigned it yet). -/
def legRate (store : QDict) (pair : CcyPair) (prev : Option ℚ) : Option ℚ :=
  match dlookup pair store with
  | some q => some q.1
  | none =>
      match dlookup (pair.2, pair.1) store with
      | some q => some (1 / q.1)
      | none => prev

/-- The conversion-walk loop of `Subscriber.identify_arbitrage`: for each
consecutive vertex pair, look up the leg rate and multiply it into
`curr_money`.  When no rate is found and `curr_rate` was never assigned,
`curr_money *= curr_rate` raises `UnboundLocalError` (result `none`). -/
def evalLegs (store : QDict) : List String → Option ℚ → ℚ → Option ℚ
  | p0 :: p1 :: rest, prev, money =>
      match legRate store (p0, p1) prev with
      | none => none
      | some r => evalLegs store (p1 :: rest) (some r) (money * r)
  | _, _, money => some money

/-- The running amount `identify_arbitrage` reaches at the end of a path,
starting from the 100-unit notional. -/
def identify_arbitrage_money (store : QDict) (path : List String) : Option ℚ :=
  evalLegs store path none 100

end Arbitrage

section CycleReconstruction

variable {α : Type} [DecidableEq α]

/-- The backward predecessor walk behind `find_negative_cycle_path` for a
negative edge `(u, v)`: position 0 is `v`, position 1 is `u`, and from
position 2 on each vertex is the predecessor of the one before it. -/
def predWalk (pred : α → α) (u v : α) : ℕ → α
  | 0 => v
  | 1 => u
  | n + 2 => pred (predWalk pred u v (n + 1))

/-- Python's `list.index`: position of the first occurrence. -/
def pyIndex (a : α) : List α → ℕ
  | [] => 0
  | b :: l => if b = a then 0 else pyIndex a l + 1

/-- The `while current not in cycle` loop of `find_negative_cycle_path`,
with explicit fuel standing in for termination of the Python loop: append
`current` and step to its predecessor until `current` is already in
`cycle`; return the final list and the repeated vertex. -/
def cycleLoop (pred : α → α) : ℕ → List α → α → Option (List α × α)
  | 0, cycle, current =>
      if current ∈ cycle then some (cycle, current) else none
  | fuel + 1, cycle, current =>
      if current ∈ cycle then some (cycle, current)
      else cycleLoop pred fuel (cycle ++ [current]) (pred current)

/-- `Subscriber.find_negative_cycle_path`: `None` for no negative edge,
otherwise walk back from `cycle = [v, u]`, truncate at the first
occurrence of the repeated vertex, close the list with its own head, and
reverse.  `fuel` bounds the loop (the Python loop diverges when the
predecessor walk never repeats). -/
def find_negative_cycle_path [Inhabited α] (pred : α → α)
    (neg_edge : Option (α × α)) (fuel : ℕ) : Option (List α) :=
  match neg_edge with
  | none => none
  | some (u, v) =>
      match cycleLoop pred fuel [v, u] (pred u) with
      | none => none
      | some (cycle, current) =>
          let cyc := cycle.drop (pyIndex current cycle)
          some ((cyc ++ [cyc.headI]).reverse)

end CycleReconstruction

/-- Timestamp order on optional store entries: an absent entry is below
everything, and present entries compare by timestamp.  `mergeStep` only
moves entries upward in this order. -/
def quoteLe : Option Quote → Option Quote → Prop
  | none, _ => True
  | some _, none => False
  | some q1, some q2 => q1.2 ≤ q2.2

/-- Strict version of `quoteLe`: an insertion (absent to present) or an
overwrite with a strictly newer timestamp. -/
def quoteLt : Option Quote → Option Quote → Prop
  | none, none => False
  | none, some _ => True
  | some _, none => False
  | some q1, some q2 => q1.2 < q2.2

/-- A well-formed 32-byte wire record: pair `EURUSD`, price bytes
`00 00 80 3f` (the float 1.0 read little-endian), timestamp 0, reserved
bytes zero. -/
def goodRec : List ℕ :=
  [69, 85, 82, 85, 83, 68, 0, 0, 128, 63, 0, 0, 0, 0, 0, 0, 0, 0,
   0, 0, 0, 0, 0, 0, 0, 0, 0, 0, 0, 0, 0, 0]

/-- A 32-byte `EURUSD` record with price 1.0 and timestamp 2 000 000 µs
(2 s): the newer-stamped record of the duplicate-pair datagram. -/
def recNewer : List ℕ :=
  [69, 85, 82, 85, 83, 68, 0, 0, 128, 63, 0, 0, 0, 0, 0, 30, 132, 128,
   0, 0, 0, 0, 0, 0, 0, 0, 0, 0, 0, 0, 0, 0]

/-- A 32-byte `EURUSD` record with price 2.0 and timestamp 0: the
later-positioned but older-stamped record of the duplicate-pair
datagram. -/
def recLast : List ℕ :=
  [69, 85, 82, 85, 83, 68, 0, 0, 0, 64, 0, 0, 0, 0, 0, 0, 0, 0,
   0, 0, 0, 0, 0, 0, 0, 0, 0, 0, 0, 0, 0, 0]

/-!  Claim theorems. -/

/-- C1: the claim says that for a leg whose pair is found neither directly
nor reversed, the evaluator reports the gap and applies no transformation,
leaving the running amount unchanged and raising nothing.  The code
instead re-multiplies by the rate left over from the previous leg — with
store `{(USD,EUR) ↦ (2, 0)}` and cycle `USD → EUR → GBP → USD` the two
missing legs each multiply by the stale rate 2, ending at 800 instead of
the mandated 200 — and with an empty store the first leg raises
`UnboundLocalError` (result `none`). -/
theorem C1_missing_rate_corrupts_amount :
    identify_arbitrage_money [(("USD", "EUR"), (2, 0))] ["USD", "EUR", "GBP", "USD"]
        = some 800 ∧
    identify_arbitrage_money [] ["USD", "EUR", "USD"] = none := by
  constructor
  · have h1 : dlookup (("USD", "EUR") : CcyPair)
        [(("USD", "EUR"), ((2 : ℚ), (0 : ℚ)))] = some (2, 0) := by simp [dlookup]
    have h2 : dlookup (("EUR", "GBP") : CcyPair)
        [(("USD", "EUR"), ((2 : ℚ), (0 : ℚ)))] = none := by simp [dlookup]
    have h3 : dlookup (("GBP", "EUR") : CcyPair)
        [(("USD", "EUR"), ((2 : ℚ), (0 : ℚ)))] = none := by simp [dlookup]
    have h4 : dlookup (("GBP", "USD") : CcyPair)
        [(("USD", "EUR"), ((2 : ℚ), (0 : ℚ)))] = none := by simp [dlookup]
    have h5 : dlookup (("USD", "GBP") : CcyPair)
        [(("USD", "EUR"), ((2 : ℚ), (0 : ℚ)))] = none := by simp [dlookup]
    simp only [identify_arbitrage_money, evalLegs, legRate, h1, h2, h3, h4, h5]
    norm_num
  · rfl

/-- C2: merging a single quote `(p, price, ts)` into any store inserts it
when `p` is absent, overwrites when the incoming timestamp is strictly
newer than the stored one, and otherwise leaves the stored entry exactly
as it was; entries at every other pair are untouched. -/
theorem C2_merge_newest_wins (store : QDict) (p : CcyPair) (price ts : ℚ)
    (q : CcyPair) :
    dlookup q (update_quotes_dict store [(p, (price, ts))]).1 =
      (if q = p then
        match dlookup p store with
        | none => some (price, ts)
        | some q0 => if q0.2 < ts then some (price, ts) else some q0
      else dlookup q store) := by
  have hfold : (update_quotes_dict store [(p, (price, ts))]).1
      = (mergeStep store (p, (price, ts))).1 := by
    simp [update_quotes_dict]
  rw [hfold]
  by_cases hq : q = p
  · subst hq
    cases h : dlookup q store with
    | none => simp [mergeStep, h, dlookup_dinsert_self]
    | some q0 =>
        by_cases hlt : q0.2 < ts
        · simp [mergeStep, h, hlt, dlookup_dinsert_self]
        · simp [mergeStep, h, hlt]
  · cases h : dlookup p store with
    | none => simp [mergeStep, h, hq, dlookup_dinsert_ne store p q _ hq]
    | some q0 =>
        by_cases hlt : q0.2 < ts
        · simp [mergeStep, h, hq, hlt, dlookup_dinsert_ne store p q _ hq]
        · simp [mergeStep, h, hq, hlt]

/-- C3: the claim says eviction removes every entry older than 1.5 s and
retains the rest.  In the running code the stored timestamps are floats
(from `deserialize_utcdatetime`) while `current_time` is a `datetime`, so
`(current_time - timestamp).total_seconds()` raises `TypeError` on the
first entry: with the 10-second-old quote below, eviction raises and
removes nothing, and the caller's `except` swallows the error. -/
theorem C3_eviction_raises_type_error :
    remove_stale_quotes_dyn [(("EUR", "USD"), (11 / 10, PyTime.fl 0))] (PyTime.dt 10)
      = .error () := rfl

/-- C7: the claim says a trailing partial record is skipped while the full
records of the same datagram are still merged.  For the 37-byte datagram
`goodRec ++ [1,2,3,4,5]`, `split_quotes` does hand over both chunks, but
`parse_quotes` raises on the 5-byte chunk (`IndexError` inside
`deserialize_price` on the empty price slice), so the receive loop's
`except` drops the entire datagram and the valid record is never merged —
even though the same record alone merges fine. -/
theorem C7_trailing_partial_drops_datagram :
    split_quotes (goodRec ++ [1, 2, 3, 4, 5]) = [goodRec, [1, 2, 3, 4, 5]] ∧
    parse_quotes (split_quotes (goodRec ++ [1, 2, 3, 4, 5])) = .error () ∧
    receive_step [] (goodRec ++ [1, 2, 3, 4, 5]) = [] ∧
    receive_step [] goodRec = [(("EUR", "USD"), (1, 0))] := by
  refine ⟨rfl, rfl, rfl, ?_⟩
  simp only [receive_step, parse_quotes, split_quotes, parseQuotesAux, decodeChunk,
    asciiDecode, deserialize_price, deserialize_utcdatetime, float32OfWord, leWord,
    beWord, goodRec, List.range_succ, List.range_zero, Bind.bind, Except.bind,
    Pure.pure, Except.pure]
  norm_num [update_quotes_dict, mergeStep, dlookup, dinsert]

/-- C8: the claim says a quote half a second old contributes the two
log-weighted edges to the rebuilt graph.  The stored timestamp is a float
while the rebuild clock is a `datetime`, so the age computation raises
`TypeError` on the first quote and the rebuild aborts with no edges at
all (the thread's `except` swallows it and no graph is published). -/
theorem C8_graph_build_raises_type_error :
    update_graph_dyn (fun q => q) [(("EUR", "USD"), (2, PyTime.fl 0))]
      (PyTime.dt (1 / 2)) = .error () := rfl

/-- C9: the claim says the merge operation returns `True` exactly when an
entry was inserted or overwritten.  Inserting a fresh quote into the empty
store does set the internal `updated` flag, but the Python function body
has no `return` statement, so the call evaluates to `None`, not a
boolean. -/
theorem C9_merge_returns_none :
    update_quotes_dict_return [] [(("EUR", "USD"), (11 / 10, 10))] = none ∧
    (update_quotes_dict [] [(("EUR", "USD"), (11 / 10, 10))]).2 = true :=
  ⟨rfl, rfl⟩

/-!  Helper lemmas for the snapshot-push discipline (C4). -/

theorem quoteLe_refl (a : Option Quote) : quoteLe a a := by
  cases a <;> simp [quoteLe]

theorem quoteLe_trans {a b c : Option Quote} (h1 : quoteLe a b) (h2 : quoteLe b c) :
    quoteLe a c := by
  cases a <;> cases b <;> cases c <;> simp_all [quoteLe]
  exact le_trans h1 h2

theorem quoteLt_of_lt_of_le {a b c : Option Quote} (h1 : quoteLt a b)
    (h2 : quoteLe b c) : quoteLt a c := by
  cases a <;> cases b <;> cases c <;> simp_all [quoteLe, quoteLt]
  exact lt_of_lt_of_le h1 h2

theorem quoteLt_ne {a b : Option Quote} (h : quoteLt a b) : a ≠ b := by
  intro he
  subst he
  cases a with
  | none => simp [quoteLt] at h
  | some q =>
      simp only [quoteLt] at h
      exact lt_irrefl _ h

theorem mergeStep_flag_false {store : QDict} {item : CcyPair × Quote}
    (h : (mergeStep store item).2 = false) : (mergeStep store item).1 = store := by
  unfold mergeStep at *
  cases hd : dlookup item.1 store with
  | none => simp [hd] at h
  | some q0 =>
      by_cases hlt : q0.2 < item.2.2
      · simp [hd, hlt] at h
      · simp [hd, hlt]

theorem mergeStep_le (store : QDict) (item : CcyPair × Quote) (q : CcyPair) :
    quoteLe (dlookup q store) (dlookup q (mergeStep store item).1) := by
  unfold mergeStep
  cases hd : dlookup item.1 store with
  | none =>
      by_cases hq : q = item.1
      · subst hq
        simp [hd, quoteLe]
      · simp [dlookup_dinsert_ne store item.1 q _ hq, quoteLe_refl]
  | some q0 =>
      by_cases hlt : q0.2 < item.2.2
      · by_cases hq : q = item.1
        · subst hq
          simp [hd, hlt, dlookup_dinsert_self, quoteLe, le_of_lt hlt]
        · simp [hlt, dlookup_dinsert_ne store item.1 q _ hq, quoteLe_refl]
      · simp [hlt, quoteLe_refl]

theorem mergeStep_flag_true {store : QDict} {item : CcyPair × Quote}
    (h : (mergeStep store item).2 = true) :
    quoteLt (dlookup item.1 store) (dlookup item.1 (mergeStep store item).1) := by
  unfold mergeStep at *
  cases hd : dlookup item.1 store with
  | none => simp [hd, dlookup_dinsert_self, quoteLt]
  | some q0 =>
      by_cases hlt : q0.2 < item.2.2
      · simp [hd, hlt, dlookup_dinsert_self, quoteLt]
      · simp [hd, hlt] at h

theorem update_quotes_dict_foldl_acc (l : List (CcyPair × Quote)) (s : QDict) (b : Bool) :
    (l.foldl (fun acc item =>
        let r := mergeStep acc.1 item
        (r.1, acc.2 || r.2)) (s, b)) =
      ((update_quotes_dict s l).1, b || (update_quotes_dict s l).2) := by
  induction l generalizing s b with
  | nil => simp [update_quotes_dict]
  | cons i rest ih =>
      simp only [update_quotes_dict, List.foldl_cons] at *
      rw [ih ((mergeStep s i).1) (b || (mergeStep s i).2),
        ih ((mergeStep s i).1) (false || (mergeStep s i).2)]
      simp [Bool.or_assoc]

theorem update_quotes_dict_cons (s : QDict) (i : CcyPair × Quote)
    (rest : List (CcyPair × Quote)) :
    update_quotes_dict s (i :: rest) =
      ((update_quotes_dict (mergeStep s i).1 rest).1,
        (mergeStep s i).2 || (update_quotes_dict (mergeStep s i).1 rest).2) := by
  show (List.foldl _ _ (i :: rest)) = _
  rw [List.foldl_cons]
  exact update_quotes_dict_foldl_acc rest ((mergeStep s i).1) (false || (mergeStep s i).2)
    |>.trans (by simp)

theorem update_quotes_dict_le (store : QDict) (batch : List (CcyPair × Quote))
    (q : CcyPair) :
    quoteLe (dlookup q store) (dlookup q (update_quotes_dict store batch).1) := by
  induction batch generalizing store with
  | nil => simp [update_quotes_dict, quoteLe_refl]
  | cons i rest ih =>
      have hfst : (update_quotes_dict store (i :: rest)).1
          = (update_quotes_dict (mergeStep store i).1 rest).1 := by
        rw [update_quotes_dict_cons]
      rw [hfst]
      exact quoteLe_trans (mergeStep_le store i q) (ih ((mergeStep store i).1))

theorem update_quotes_dict_flag_false {store : QDict} {batch : List (CcyPair × Quote)}
    (h : (update_quotes_dict store batch).2 = false) :
    (update_quotes_dict store batch).1 = store := by
  induction batch generalizing store with
  | nil => simp [update_quotes_dict]
  | cons i rest ih =>
      have hfst : (update_quotes_dict store (i :: rest)).1
          = (update_quotes_dict (mergeStep store i).1 rest).1 := by
        rw [update_quotes_dict_cons]
      have hsnd : (update_quotes_dict store (i :: rest)).2
          = ((mergeStep store i).2 || (update_quotes_dict (mergeStep store i).1 rest).2) := by
        rw [update_quotes_dict_cons]
      rw [hsnd] at h
      simp only [Bool.or_eq_false_iff] at h
      obtain ⟨h1, h2⟩ := h
      rw [mergeStep_flag_false h1] at h2
      rw [hfst, mergeStep_flag_false h1]
      exact ih h2

theorem update_quotes_dict_flag_true {store : QDict} {batch : List (CcyPair × Quote)}
    (h : (update_quotes_dict store batch).2 = true) :
    ∃ q, quoteLt (dlookup q store) (dlookup q (update_quotes_dict store batch).1) := by
  induction batch generalizing store with
  | nil => simp [update_quotes_dict] at h
  | cons i rest ih =>
      have hfst : (update_quotes_dict store (i :: rest)).1
          = (update_quotes_dict (mergeStep store i).1 rest).1 := by
        rw [update_quotes_dict_cons]
      have hsnd : (update_quotes_dict store (i :: rest)).2
          = ((mergeStep store i).2 || (update_quotes_dict (mergeStep store i).1 rest).2) := by
        rw [update_quotes_dict_cons]
      rw [hsnd] at h
      rw [hfst]
      by_cases hm : (mergeStep store i).2 = true
      · exact ⟨i.1, quoteLt_of_lt_of_le (mergeStep_flag_true hm)
          (update_quotes_dict_le ((mergeStep store i).1) rest i.1)⟩
      · have hm' : (mergeStep store i).2 = false := by
          cases hmv : (mergeStep store i).2 with
          | false => rfl
          | true => exact absurd hmv hm
        rw [hm', Bool.false_or] at h
        rw [mergeStep_flag_false hm'] at h ⊢
        exact ih h

theorem foldl_ddelete_none {K V : Type} [DecidableEq K] (ks : List K)
    (s : List (K × V)) (k : K) (h : dlookup k s = none) :
    dlookup k (ks.foldl (fun s k' => ddelete k' s) s) = none := by
  induction ks generalizing s with
  | nil => simpa using h
  | cons k0 rest ih =>
      simp only [List.foldl_cons]
      exact ih (ddelete k0 s) (dlookup_ddelete_none s k k0 h)

theorem foldl_ddelete_of_mem {K V : Type} [DecidableEq K] (ks : List K)
    (s : List (K × V)) (k : K) (h : k ∈ ks) :
    dlookup k (ks.foldl (fun s k' => ddelete k' s) s) = none := by
  induction ks generalizing s with
  | nil => simp at h
  | cons k0 rest ih =>
      simp only [List.foldl_cons]
      rcases List.mem_cons.1 h with h1 | h1
      · subst h1
        exact foldl_ddelete_none rest (ddelete k s) k (dlookup_ddelete_self s k)
      · exact ih (ddelete k0 s) h1

/-- C4: a merge call pushes a snapshot exactly when it changed the store,
and the pushed snapshot is the post-change store; likewise for stale-quote
eviction (in the time-uniform model of `remove_stale_quotes`).  A call
that changes nothing pushes nothing. -/
theorem C4_snapshot_push_iff_changed (store : QDict)
    (batch : List (CcyPair × Quote)) (now : ℚ) :
    update_quotes_dict_push store batch =
      (if (update_quotes_dict store batch).1 = store then none
       else some (update_quotes_dict store batch).1) ∧
    remove_stale_quotes_push store now =
      (if (remove_stale_quotes store now).1 = store then none
       else some (remove_stale_quotes store now).1) := by
  constructor
  · unfold update_quotes_dict_push
    by_cases hf : (update_quotes_dict store batch).2 = true
    · obtain ⟨q, hq⟩ := update_quotes_dict_flag_true hf
      have hne : (update_quotes_dict store batch).1 ≠ store := by
        intro he
        exact quoteLt_ne hq (by rw [he])
      simp [hf, hne]
    · have hf' : (update_quotes_dict store batch).2 = false :=
        Bool.not_eq_true _ ▸ hf
      have he := update_quotes_dict_flag_false hf'
      simp [hf', he]
  · have h1 : (remove_stale_quotes store now).1 =
        ((store.filter (fun e => now - e.2.2 > 3 / 2)).map Prod.fst).foldl
          (fun s k => ddelete k s) store := rfl
    have h2 : (remove_stale_quotes store now).2 =
        !((store.filter (fun e => now - e.2.2 > 3 / 2)).map Prod.fst).isEmpty := rfl
    cases hs : (store.filter (fun e => now - e.2.2 > 3 / 2)).map Prod.fst with
    | nil =>
        have hstore : (remove_stale_quotes store now).1 = store := by
          rw [h1, hs]
          rfl
        have hflag : (remove_stale_quotes store now).2 = false := by
          rw [h2, hs]
          rfl
        show (if (remove_stale_quotes store now).2 = true then
            some ((remove_stale_quotes store now).1) else none) = _
        rw [hflag, if_neg Bool.false_ne_true, if_pos hstore]
    | cons k rest =>
        have hflag : (remove_stale_quotes store now).2 = true := by
          rw [h2, hs]
          rfl
        have hk : k ∈ (store.filter (fun e => now - e.2.2 > 3 / 2)).map Prod.fst := by
          rw [hs]
          exact List.mem_cons_self _ _
        obtain ⟨e, he, hek⟩ := List.mem_map.1 hk
        have hes : e ∈ store := List.mem_of_mem_filter he
        have hsome : (dlookup k store).isSome :=
          hek ▸ dlookup_isSome_of_mem store e.1 e.2 (Prod.mk.eta ▸ hes)
        have hnone : dlookup k ((remove_stale_quotes store now).1) = none := by
          rw [h1]
          exact foldl_ddelete_of_mem _ store k hk
        have hne : (remove_stale_quotes store now).1 ≠ store := by
          intro he'
          rw [he'] at hnone
          rw [hnone] at hsome
          simp at hsome
        show (if (remove_stale_quotes store now).2 = true then
            some ((remove_stale_quotes store now).1) else none) = _
        rw [hflag, if_pos rfl, if_neg hne]

/-!  Record layout (C6). -/

theorem decodeChunk_layout (b0 b1 b2 b3 b4 b5 b6 b7 b8 b9 b10 b11 b12 b13 b14
    b15 b16 b17 b18 b19 b20 b21 b22 b23 b24 b25 b26 b27 b28 b29 b30 b31 : ℕ)
    (h0 : b0 < 128) (h1 : b1 < 128) (h2 : b2 < 128)
    (h3 : b3 < 128) (h4 : b4 < 128) (h5 : b5 < 128) :
    decodeChunk [b0, b1, b2, b3, b4, b5, b6, b7, b8, b9, b10, b11, b12, b13, b14,
        b15, b16, b17, b18, b19, b20, b21, b22, b23, b24, b25, b26, b27, b28, b29,
        b30, b31] =
      .ok ((String.mk [Char.ofNat b0, Char.ofNat b1, Char.ofNat b2],
            String.mk [Char.ofNat b3, Char.ofNat b4, Char.ofNat b5]),
           (float32OfWord (b6 + 256 * b7 + 65536 * b8 + 16777216 * b9),
            ((b10 * 72057594037927936 + b11 * 281474976710656 + b12 * 1099511627776 +
              b13 * 4294967296 + b14 * 16777216 + b15 * 65536 + b16 * 256 + b17 : ℕ) : ℚ)
              / 1000000)) := by
  show Except.bind (asciiDecode [b0, b1, b2]) (fun c1 =>
      Except.bind (asciiDecode [b3, b4, b5]) (fun c2 =>
        Except.bind (deserialize_price [b6, b7, b8, b9]) (fun price =>
          Except.bind (deserialize_utcdatetime [b10, b11, b12, b13, b14, b15, b16, b17])
            (fun ts => Except.pure ((c1, c2), (price, ts)))))) = _
  have ha1 : asciiDecode [b0, b1, b2]
      = .ok (String.mk [Char.ofNat b0, Char.ofNat b1, Char.ofNat b2]) := by
    unfold asciiDecode
    rw [if_pos (by simp [h0, h1, h2] : ∀ b ∈ [b0, b1, b2], b < 128)]
    rfl
  have ha2 : asciiDecode [b3, b4, b5]
      = .ok (String.mk [Char.ofNat b3, Char.ofNat b4, Char.ofNat b5]) := by
    unfold asciiDecode
    rw [if_pos (by simp [h3, h4, h5] : ∀ b ∈ [b3, b4, b5], b < 128)]
    rfl
  have hp : deserialize_price [b6, b7, b8, b9]
      = .ok (float32OfWord (b6 + 256 * b7 + 65536 * b8 + 16777216 * b9)) := by
    unfold deserialize_price
    simp only [leWord, List.length_cons, List.length_nil, List.take]
    norm_num
    congr 1
    ring
  have ht : deserialize_utcdatetime [b10, b11, b12, b13, b14, b15, b16, b17]
      = .ok (((b10 * 72057594037927936 + b11 * 281474976710656 + b12 * 1099511627776 +
          b13 * 4294967296 + b14 * 16777216 + b15 * 65536 + b16 * 256 + b17 : ℕ) : ℚ)
            / 1000000) := by
    unfold deserialize_utcdatetime
    simp only [beWord, List.foldl_cons, List.foldl_nil, List.length_cons,
      List.length_nil, List.take]
    norm_num
    congr 1
    ring
  rw [ha1, ha2, hp, ht]
  simp only [Except.bind, Except.pure]

/-- C6 (amended): a 32-byte record is decoded with bytes 0–5 as two
3-character ASCII currency codes, bytes 6–9 as an IEEE-754 single-precision
price read in LITTLE-endian (native, no byteswap) order — not big-endian as
the claim states — bytes 10–17 as a big-endian unsigned microsecond count
divided down to seconds, and bytes 18–31 ignored (they do not occur in the
result). -/
theorem C6_record_layout (b0 b1 b2 b3 b4 b5 b6 b7 b8 b9 b10 b11 b12 b13 b14
    b15 b16 b17 b18 b19 b20 b21 b22 b23 b24 b25 b26 b27 b28 b29 b30 b31 : ℕ)
    (h0 : b0 < 128) (h1 : b1 < 128) (h2 : b2 < 128)
    (h3 : b3 < 128) (h4 : b4 < 128) (h5 : b5 < 128) :
    parse_quotes [[b0, b1, b2, b3, b4, b5, b6, b7, b8, b9, b10, b11, b12, b13, b14,
        b15, b16, b17, b18, b19, b20, b21, b22, b23, b24, b25, b26, b27, b28, b29,
        b30, b31]] =
      .ok [((String.mk [Char.ofNat b0, Char.ofNat b1, Char.ofNat b2],
             String.mk [Char.ofNat b3, Char.ofNat b4, Char.ofNat b5]),
            (float32OfWord (b6 + 256 * b7 + 65536 * b8 + 16777216 * b9),
             ((b10 * 72057594037927936 + b11 * 281474976710656 + b12 * 1099511627776 +
               b13 * 4294967296 + b14 * 16777216 + b15 * 65536 + b16 * 256 + b17 : ℕ) : ℚ)
               / 1000000))] := by
  have hd := decodeChunk_layout b0 b1 b2 b3 b4 b5 b6 b7 b8 b9 b10 b11 b12 b13 b14
    b15 b16 b17 b18 b19 b20 b21 b22 b23 b24 b25 b26 b27 b28 b29 b30 b31
    h0 h1 h2 h3 h4 h5
  simp only [parse_quotes, parseQuotesAux, hd, dinsert]

/-- C6 witness: the amended layout theorem applied to a concrete `EURUSD`
record with price bytes `00 00 80 3f` (1.0 little-endian), zero timestamp,
and nonzero reserved bytes 18–31 (which do not show up in the result). -/
theorem C6_record_layout_witness :
    ((69 : ℕ) < 128 ∧ (85 : ℕ) < 128 ∧ (82 : ℕ) < 128 ∧
     (85 : ℕ) < 128 ∧ (83 : ℕ) < 128 ∧ (68 : ℕ) < 128) ∧
    parse_quotes [[69, 85, 82, 85, 83, 68, 0, 0, 128, 63, 0, 0, 0, 0, 0, 0, 0, 0,
        1, 2, 3, 4, 5, 6, 7, 8, 9, 10, 11, 12, 13, 14]] =
      .ok [((String.mk [Char.ofNat 69, Char.ofNat 85, Char.ofNat 82],
             String.mk [Char.ofNat 85, Char.ofNat 83, Char.ofNat 68]),
            (float32OfWord (0 + 256 * 0 + 65536 * 128 + 16777216 * 63),
             ((0 * 72057594037927936 + 0 * 281474976710656 + 0 * 1099511627776 +
               0 * 4294967296 + 0 * 16777216 + 0 * 65536 + 0 * 256 + 0 : ℕ) : ℚ)
               / 1000000))] :=
  ⟨⟨by decide, by decide, by decide, by decide, by decide, by decide⟩,
    C6_record_layout 69 85 82 85 83 68 0 0 128 63 0 0 0 0 0 0 0 0
      1 2 3 4 5 6 7 8 9 10 11 12 13 14
      (by decide) (by decide) (by decide) (by decide) (by decide) (by decide)⟩

/-- C6 counterexample: the decoder's own docstring example bytes
`d5 e9 f6 42` decode (little-endian) to the float32 value 123.4567…, i.e.
16181717/131072; reading the same four bytes as the big-endian word
`0xD5E9F642`, as the claim mandates, yields a different (huge negative)
value, so bytes 6–9 are not decoded big-endian. -/
theorem C6_price_big_endian_counterexample :
    deserialize_price [213, 233, 246, 66] = .ok (16181717 / 131072) ∧
    float32OfWord (((213 * 256 + 233) * 256 + 246) * 256 + 66)
      ≠ (16181717 : ℚ) / 131072 := by
  constructor
  · unfold deserialize_price
    norm_num [leWord, float32OfWord]
  · norm_num [float32OfWord]

/-!  Last-chunk-wins within one datagram (C10). -/

theorem parseQuotesAux_ok_split (xs ys : List (List ℕ))
    (acc d : List (CcyPair × Quote))
    (h : parseQuotesAux acc (xs ++ ys) = .ok d) :
    ∃ d0, parseQuotesAux acc xs = .ok d0 ∧ parseQuotesAux d0 ys = .ok d := by
  induction xs generalizing acc with
  | nil => exact ⟨acc, rfl, h⟩
  | cons x xs ih =>
      rw [List.cons_append] at h
      simp only [parseQuotesAux] at h ⊢
      cases hx : decodeChunk x with
      | error e =>
          rw [hx] at h
          simp at h
      | ok r =>
          rw [hx] at h
          exact ih _ h

theorem parseQuotesAux_preserve (ys : List (List ℕ))
    (acc d : List (CcyPair × Quote)) (p : CcyPair)
    (hys : ∀ c ∈ ys, ∀ r, decodeChunk c = .ok r → r.1 ≠ p)
    (h : parseQuotesAux acc ys = .ok d) :
    dlookup p d = dlookup p acc := by
  induction ys generalizing acc with
  | nil =>
      simp only [parseQuotesAux, Except.ok.injEq] at h
      rw [← h]
  | cons y ys ih =>
      simp only [parseQuotesAux] at h
      cases hy : decodeChunk y with
      | error e =>
          rw [hy] at h
          simp at h
      | ok r =>
          rw [hy] at h
          have hne : r.1 ≠ p := hys y (List.mem_cons_self _ _) r hy
          have hrec := ih (dinsert acc r.1 r.2)
            (fun c hc => hys c (List.mem_cons_of_mem _ hc)) h
          rw [hrec, dlookup_dinsert_ne acc r.1 p r.2 (fun he => hne he.symm)]

/-- C10: within a single datagram, the parsed dictionary maps a pair to
the decoded value of the last chunk in the list that encodes that pair,
with no timestamp comparison — even when an earlier chunk carries a
strictly newer timestamp (the witness exercises exactly that). -/
theorem C10_last_chunk_wins (xs ys : List (List ℕ)) (q : List ℕ) (p : CcyPair)
    (v : Quote) (d : List (CcyPair × Quote))
    (hq : decodeChunk q = .ok (p, v))
    (hys : ∀ c ∈ ys, ∀ r, decodeChunk c = .ok r → r.1 ≠ p)
    (hp : parse_quotes (xs ++ q :: ys) = .ok d) :
    dlookup p d = some v := by
  unfold parse_quotes at hp
  obtain ⟨d0, hx, hrest⟩ := parseQuotesAux_ok_split xs (q :: ys) [] d hp
  simp only [parseQuotesAux] at hrest
  rw [hq] at hrest
  have hpres := parseQuotesAux_preserve ys (dinsert d0 p v) d p hys hrest
  rw [hpres, dlookup_dinsert_self]

/-- C10 witness: the datagram `[recNewer, recLast]` carries two `EURUSD`
records; the earlier one is stamped 2 s (newer), the later one 0 s with a
different price, and parsing maps the pair to the later record's
`(2.0, 0)`. -/
theorem C10_last_chunk_wins_witness :
    decodeChunk recLast = .ok ((("EUR", "USD") : CcyPair), ((2 : ℚ), (0 : ℚ))) ∧
    (∀ c ∈ ([] : List (List ℕ)), ∀ r, decodeChunk c = .ok r →
      r.1 ≠ (("EUR", "USD") : CcyPair)) ∧
    parse_quotes [recNewer, recLast]
      = .ok [((("EUR", "USD") : CcyPair), ((2 : ℚ), (0 : ℚ)))] ∧
    dlookup (("EUR", "USD") : CcyPair)
      [((("EUR", "USD") : CcyPair), ((2 : ℚ), (0 : ℚ)))] = some (2, 0) := by
  have hdec : decodeChunk recLast
      = .ok ((("EUR", "USD") : CcyPair), ((2 : ℚ), (0 : ℚ))) := by
    simp only [recLast, decodeChunk, asciiDecode, deserialize_price,
      deserialize_utcdatetime, float32OfWord, leWord, beWord, Bind.bind, Except.bind,
      Pure.pure, Except.pure]
    norm_num
  have hnil : ∀ c ∈ ([] : List (List ℕ)), ∀ r, decodeChunk c = .ok r →
      r.1 ≠ (("EUR", "USD") : CcyPair) := by
    intro c hc
    simp at hc
  have hparse : parse_quotes [recNewer, recLast]
      = .ok [((("EUR", "USD") : CcyPair), ((2 : ℚ), (0 : ℚ)))] := by
    simp only [recNewer, recLast, parse_quotes, parseQuotesAux, decodeChunk,
      asciiDecode, deserialize_price, deserialize_utcdatetime, float32OfWord,
      leWord, beWord, Bind.bind, Except.bind, Pure.pure, Except.pure]
    norm_num [dinsert]
  refine ⟨hdec, hnil, hparse, ?_⟩
  exact C10_last_chunk_wins [recNewer] [] recLast ("EUR", "USD") (2, 0)
    [((("EUR", "USD") : CcyPair), ((2 : ℚ), (0 : ℚ)))] hdec hnil hparse

/-!  Cycle reconstruction (C5). -/

theorem pyIndex_lt_length {α : Type} [DecidableEq α] {a : α} {l : List α}
    (h : a ∈ l) : pyIndex a l < l.length := by
  induction l with
  | nil => simp at h
  | cons b t ih =>
      by_cases hb : b = a
      · simp [pyIndex, hb]
      · have ht : a ∈ t := by
          rcases List.mem_cons.1 h with h1 | h1
          · exact absurd h1.symm hb
          · exact h1
        simpa [pyIndex, hb] using ih ht

theorem get_pyIndex {α : Type} [DecidableEq α] {a : α} {l : List α}
    (h : a ∈ l) : l.get ⟨pyIndex a l, pyIndex_lt_length h⟩ = a := by
  induction l with
  | nil => simp at h
  | cons b t ih =>
      by_cases hb : b = a
      · simp [pyIndex, hb]
      · have ht : a ∈ t := by
          rcases List.mem_cons.1 h with h1 | h1
          · exact absurd h1.symm hb
          · exact h1
        have h3 : (⟨pyIndex a (b :: t), pyIndex_lt_length h⟩ : Fin (b :: t).length)
            = ⟨pyIndex a t + 1, Nat.succ_lt_succ (pyIndex_lt_length ht)⟩ := by
          apply Fin.ext
          simp [pyIndex, hb]
        rw [h3, List.get_cons_succ]
        exact ih ht

theorem predWalk_succ {α : Type} (pred : α → α) (u v : α) (n : ℕ) (hn : 1 ≤ n) :
    predWalk pred u v (n + 1) = pred (predWalk pred u v n) := by
  cases n with
  | zero => exact absurd hn (by decide)
  | succ m => rfl

theorem cycleLoop_spec {α : Type} [DecidableEq α] (pred : α → α) (u v : α) :
    ∀ (fuel n : ℕ) (cycle : List α) (current : α) (res : List α × α),
      2 ≤ n →
      cycle = (List.range n).map (predWalk pred u v) →
      current = predWalk pred u v n →
      cycle.Nodup →
      cycleLoop pred fuel cycle current = some res →
      ∃ M, n ≤ M ∧ res.1 = (List.range M).map (predWalk pred u v) ∧
        res.2 = predWalk pred u v M ∧ res.1.Nodup ∧ res.2 ∈ res.1 := by
  intro fuel
  induction fuel with
  | zero =>
      intro n cycle current res hn hc hcur hnd hloop
      simp only [cycleLoop] at hloop
      by_cases hmem : current ∈ cycle
      · rw [if_pos hmem] at hloop
        obtain rfl : (cycle, current) = res := Option.some.inj hloop
        exact ⟨n, le_refl n, hc, hcur, hnd, hmem⟩
      · rw [if_neg hmem] at hloop
        exact absurd hloop (by simp)
  | succ fuel ih =>
      intro n cycle current res hn hc hcur hnd hloop
      simp only [cycleLoop] at hloop
      by_cases hmem : current ∈ cycle
      · rw [if_pos hmem] at hloop
        obtain rfl : (cycle, current) = res := Option.some.inj hloop
        exact ⟨n, le_refl n, hc, hcur, hnd, hmem⟩
      · rw [if_neg hmem] at hloop
        have hc' : cycle ++ [current] = (List.range (n + 1)).map (predWalk pred u v) := by
          rw [hc, hcur, List.range_succ, List.map_append]
          rfl
        have hcur' : pred current = predWalk pred u v (n + 1) := by
          rw [hcur]
          exact (predWalk_succ pred u v n (by omega)).symm
        have hnd' : (cycle ++ [current]).Nodup := by
          simp [List.nodup_append, hnd, hmem, List.disjoint_singleton]
        obtain ⟨M, hM, h1, h2, h3, h4⟩ :=
          ih (n + 1) (cycle ++ [current]) (pred current) res (by omega) hc' hcur' hnd' hloop
        exact ⟨M, by omega, h1, h2, h3, h4⟩

theorem drop_map_range {β : Type} (f : ℕ → β) (j n : ℕ) :
    ((List.range n).map f).drop j = (List.range (n - j)).map (fun i => f (j + i)) := by
  apply List.ext_get
  · simp
  · intro i h1 h2
    have h3 : j + i < ((List.range n).map f).length := by
      simp at h1 ⊢
      omega
    rw [← List.get_drop ((List.range n).map f) h3]
    simp [List.get_map, List.get_range]

theorem dropLast_reverse_eq {α : Type} (l : List α) :
    l.reverse.dropLast = l.tail.reverse := by
  cases l with
  | nil => rfl
  | cons a t => simp [List.reverse_cons, List.dropLast_concat]

/-- C5 (amended, with the additional hypothesis that the negative edge's
endpoints are distinct, `u ≠ v`): when the reconstruction returns a list,
that list has equal first and last vertices, its other vertices are
pairwise distinct (the list without its final element has no duplicates),
and it equals the reverse of the closed suffix of the backward walk
`[v, u, pred u, …]` truncated at the first repeated vertex: there are `m`
and `j` with the first `m+2` walk vertices pairwise distinct, the walk's
vertex `m+2` equal to its vertex `j`, and the result equal to the reverse
of walk positions `j … m+2`. -/
theorem C5_cycle_reconstruction {α : Type} [DecidableEq α] [Inhabited α]
    (pred : α → α) (u v : α) (fuel : ℕ) (result : List α)
    (huv : u ≠ v)
    (hres : find_negative_cycle_path pred (some (u, v)) fuel = some result) :
    result.head? = result.getLast? ∧ result.dropLast.Nodup ∧
    ∃ m j, j < m + 2 ∧
      ((List.range (m + 2)).map (predWalk pred u v)).Nodup ∧
      predWalk pred u v (m + 2) = predWalk pred u v j ∧
      result = ((List.range (m + 3 - j)).map
        (fun i => predWalk pred u v (j + i))).reverse := by
  unfold find_negative_cycle_path at hres
  dsimp only at hres
  cases hloop : cycleLoop pred fuel [v, u] (pred u) with
  | none =>
      rw [hloop] at hres
      simp at hres
  | some cc =>
      rw [hloop] at hres
      obtain ⟨cycle, current⟩ := cc
      simp only [Option.some.injEq] at hres
      obtain ⟨M, hM2, h1, h2, h3, h4⟩ :=
        cycleLoop_spec pred u v fuel 2 [v, u] (pred u) (cycle, current)
          (le_refl 2) rfl rfl (by simp [Ne.symm huv]) hloop
      replace h1 : cycle = (List.range M).map (predWalk pred u v) := h1
      replace h2 : current = predWalk pred u v M := h2
      replace h3 : cycle.Nodup := h3
      replace h4 : current ∈ cycle := h4
      subst h1
      subst h2
      obtain ⟨m, rfl⟩ : ∃ m, M = m + 2 := ⟨M - 2, by omega⟩
      set j := pyIndex (predWalk pred u v (m + 2))
        ((List.range (m + 2)).map (predWalk pred u v)) with hjdef
      have hjlt : j < ((List.range (m + 2)).map (predWalk pred u v)).length :=
        pyIndex_lt_length h4
      have hgetj := get_pyIndex h4
      have hjM : j < m + 2 := by simpa using hjlt
      rw [List.get_map] at hgetj
      rw [List.get_range] at hgetj
      have hcons : ((List.range (m + 2)).map (predWalk pred u v)).drop j
          = predWalk pred u v (m + 2) ::
            ((List.range (m + 2)).map (predWalk pred u v)).drop (j + 1) := by
        rw [List.drop_eq_get_cons hjlt, List.get_map, List.get_range, hgetj]
      have hheadI : (((List.range (m + 2)).map (predWalk pred u v)).drop j).headI
          = predWalk pred u v (m + 2) := by
        rw [hcons]
        rfl
      rw [hheadI] at hres
      have hsuffix : ((List.range (m + 2)).map (predWalk pred u v)).drop j
            ++ [predWalk pred u v (m + 2)]
          = (List.range (m + 3 - j)).map (fun i => predWalk pred u v (j + i)) := by
        rw [drop_map_range, show m + 3 - j = (m + 2 - j) + 1 from by omega,
          List.range_succ, List.map_append]
        simp only [List.map_cons, List.map_nil]
        rw [show j + (m + 2 - j) = m + 2 from by omega]
      refine ⟨?_, ?_, m, j, hjM, h3, hgetj.symm, ?_⟩
      · rw [← hres, List.head?_reverse, List.getLast?_reverse, List.getLast?_concat,
          hcons]
        simp
      · rw [← hres, dropLast_reverse_eq, List.nodup_reverse, hcons]
        simp only [List.cons_append, List.tail_cons]
        have hnd_dropj := List.Nodup.sublist
          (List.drop_sublist j ((List.range (m + 2)).map (predWalk pred u v))) h3
        rw [hcons, List.nodup_cons] at hnd_dropj
        obtain ⟨hnotin, hndrest⟩ := hnd_dropj
        simp [List.nodup_append, hndrest, hnotin, List.disjoint_singleton]
      · rw [← hres, hsuffix]

/-- C5 witness: a predecessor map with the non-cyclic prefix
`USD ← GBP` (vertices 0 ← 1) feeding the 2-cycle `EUR ↔ CHF` (vertices
2 ↔ 3), negative edge `(u, v) = (1, 0)`: reconstruction returns
`[2, 3, 2]`, the prefix is discarded, and the characterization holds. -/
theorem C5_cycle_reconstruction_witness :
    ((1 : ℕ) ≠ 0) ∧
    find_negative_cycle_path
      (fun n : ℕ => if n = 1 then 2 else if n = 2 then 3 else if n = 3 then 2 else 9)
      (some (1, 0)) 10 = some [2, 3, 2] ∧
    (([2, 3, 2] : List ℕ).head? = ([2, 3, 2] : List ℕ).getLast? ∧
     ([2, 3, 2] : List ℕ).dropLast.Nodup ∧
     ∃ m j, j < m + 2 ∧
       ((List.range (m + 2)).map (predWalk
         (fun n : ℕ => if n = 1 then 2 else if n = 2 then 3 else if n = 3 then 2 else 9)
         1 0)).Nodup ∧
       predWalk
         (fun n : ℕ => if n = 1 then 2 else if n = 2 then 3 else if n = 3 then 2 else 9)
         1 0 (m + 2)
         = predWalk
           (fun n : ℕ => if n = 1 then 2 else if n = 2 then 3 else if n = 3 then 2 else 9)
           1 0 j ∧
       ([2, 3, 2] : List ℕ) = ((List.range (m + 3 - j)).map
         (fun i => predWalk
           (fun n : ℕ => if n = 1 then 2 else if n = 2 then 3 else if n = 3 then 2 else 9)
           1 0 (j + i))).reverse) := by
  have h1 : (1 : ℕ) ≠ 0 := by decide
  have h2 : find_negative_cycle_path
      (fun n : ℕ => if n = 1 then 2 else if n = 2 then 3 else if n = 3 then 2 else 9)
      (some (1, 0)) 10 = some [2, 3, 2] := by decide
  exact ⟨h1, h2, C5_cycle_reconstruction _ 1 0 10 [2, 3, 2] h1 h2⟩

/-- C5 counterexample: for the self negative edge `(u, v) = (0, 0)` under
the constant predecessor map, the code returns `[0, 0, 0]`, which is not
the reverse of the closed suffix of the walk `[0, 0, …]` truncated at the
first repeated vertex (that closed suffix is `[0, 0]`): no `m`, `j`
satisfy the claim's characterization, since the walk's first two vertices
already coincide. -/
theorem C5_self_edge_counterexample :
    find_negative_cycle_path (fun _ : ℕ => 0) (some (0, 0)) 5 = some [0, 0, 0] ∧
    ¬ (∃ m j, j < m + 2 ∧
        ((List.range (m + 2)).map (predWalk (fun _ : ℕ => 0) 0 0)).Nodup ∧
        predWalk (fun _ : ℕ => 0) 0 0 (m + 2) = predWalk (fun _ : ℕ => 0) 0 0 j ∧
        ([0, 0, 0] : List ℕ) = ((List.range (m + 3 - j)).map
          (fun i => predWalk (fun _ : ℕ => 0) 0 0 (j + i))).reverse) := by
  constructor
  · decide
  · rintro ⟨m, j, hj, hnd, heq, hres⟩
    have hrep : ((List.range (m + 2)).map (predWalk (fun _ : ℕ => 0) 0 0))
        = List.replicate (m + 2) 0 := by
      apply List.eq_replicate.2
      constructor
      · simp
      · intro b hb
        simp only [List.mem_map] at hb
        obtain ⟨i, _, hi⟩ := hb
        rw [← hi]
        exact match i with
          | 0 => rfl
          | 1 => rfl
          | k + 2 => rfl
    rw [hrep, List.nodup_replicate] at hnd
    omega
